import Mathlib

/-!
# Verification of the pa11ycrawler item pipelines

Shallow embedding of `pa11ycrawler/pipelines/__init__.py`: the three scrapy
item pipelines `DuplicatesPipeline`, `DropDRFPipeline` and
`ActivateBlockIdPipeline`.

A scrapy item is only ever inspected through its `url` field, so a record is
modelled by its URL.  The `urlobject` library used by the source represents a
URL as a string and re-parses it on each operation via `urlsplit`; we model a
URL by its five `urlsplit` components (scheme, netloc, path, query, fragment),
each an uninterpreted string, and URL equality (used by the `urls_seen` sets)
by component-wise equality.  `DropItem` (dropping a record) is modelled by
returning `none`; an uncaught Python exception escaping a pipeline method is
modelled by an outer `none` on an `Option`-valued step function.

String operations (`str.split`, `str.rsplit`, `"/".join`, `int(...)`,
percent and plus decoding and encoding from `urllib.parse` as used by
`urlobject`) are modelled on `List Char`.  Percent codecs are modelled
per-character: `%XX` maps to the code point `XX`, so multi-byte UTF-8
percent-escapes (and non-ASCII digit/whitespace tolerance of `int()`) are
simplified; every claim below concerns ASCII-shaped URLs where the models
agree with CPython.
-/

set_option linter.unusedVariables false

namespace Pa11y

/-! ## Hex digits -/

/-- A hexadecimal digit, as accepted by `urllib.parse.unquote`. -/
def isHexDigitChar (c : Char) : Bool :=
  c.isDigit || ('a' ≤ c && c ≤ 'f') || ('A' ≤ c && c ≤ 'F')

/-- Numeric value of a hexadecimal digit. -/
def hexVal (c : Char) : Nat :=
  if c.isDigit then c.toNat - '0'.toNat
  else if 'a' ≤ c && c ≤ 'f' then c.toNat - 'a'.toNat + 10
  else c.toNat - 'A'.toNat + 10

/-- Upper-case hexadecimal digit for `n < 16`, as emitted by `urllib.parse.quote`. -/
def hexDigitChar (n : Nat) : Char :=
  (['0','1','2','3','4','5','6','7','8','9','A','B','C','D','E','F']).getD n '0'

/-! ## Percent decoding and encoding (`urllib.parse`, as used by `urlobject`) -/

/-- Model of `urllib.parse.unquote`: decode `%XX` escapes, leaving invalid
escapes as literal text.  Multi-byte UTF-8 escape sequences are decoded
escape-by-escape to single code points (a model simplification; identical to
CPython on ASCII escapes). -/
def pathDecode : List Char → List Char
  | [] => []
  | c :: rest =>
    if c = '%' then
      match rest with
      | a :: b :: rest2 =>
        if isHexDigitChar a && isHexDigitChar b then
          Char.ofNat (16 * hexVal a + hexVal b) :: pathDecode rest2
        else '%' :: pathDecode (a :: b :: rest2)
      | r => '%' :: pathDecode r
    else c :: pathDecode rest

/-- `+` denotes a space inside query strings. -/
def plusToSpace (c : Char) : Char := if c = '+' then ' ' else c

/-- Model of `urllib.parse.unquote_plus` (`urlobject`'s query-string decoder):
turn `+` into spaces, then decode percent escapes. -/
def qsDecode (l : List Char) : List Char := pathDecode (l.map plusToSpace)

/-- Characters `urllib.parse.quote_plus` leaves unescaped (with empty `safe`):
ASCII alphanumerics and `_ . - ~`. -/
def qsSafeChar (c : Char) : Bool :=
  c.isAlphanum || c = '_' || c = '.' || c = '-' || c = '~'

/-- Model of `urllib.parse.quote_plus` on one character: space becomes `+`,
safe characters stay, other Latin-1 code points become `%XX`.  (CPython
percent-encodes the UTF-8 bytes of higher code points; the model leaves them
in place — a simplification that preserves the round-trip behaviour.) -/
def qsEncodeChar (c : Char) : List Char :=
  if c = ' ' then ['+']
  else if qsSafeChar c then [c]
  else if c.toNat < 256 then ['%', hexDigitChar (c.toNat / 16), hexDigitChar (c.toNat % 16)]
  else [c]

/-- Model of `urllib.parse.quote_plus` (`urlobject`'s query-string encoder). -/
def qsEncode (l : List Char) : List Char := l.flatMap qsEncodeChar

/-! ## Python string splitting -/

/-- Prepend a character to the first field of a split result. -/
def consHead (c : Char) : List (List Char) → List (List Char)
  | [] => [[c]]
  | h :: t => (c :: h) :: t

/-- Model of `str.split` / `re.split` on single-character separators selected
by `isSep`: the list of (possibly empty) fields between separator
occurrences.  `splitP isSep [] = [[]]`, matching Python. -/
def splitP (isSep : Char → Bool) : List Char → List (List Char)
  | [] => [[]]
  | c :: rest =>
    if isSep c then [] :: splitP isSep rest
    else consHead c (splitP isSep rest)

/-- Model of `sep.join(fields)` for a one-character separator. -/
def joinChar (sep : Char) : List (List Char) → List Char
  | [] => []
  | [x] => x
  | x :: xs => x ++ sep :: joinChar sep xs

/-- Model of `str.split(sep, 1)` restricted to what the source consumes:
the text before and after the first occurrence of `sep`, or `none` if `sep`
does not occur. -/
def splitFirst (sep : Char) : List Char → Option (List Char × List Char)
  | [] => none
  | c :: rest =>
    if c = sep then some ([], rest)
    else match splitFirst sep rest with
      | none => none
      | some (a, b) => some (c :: a, b)

/-! ## Python `int()` -/

/-- Continuation of a digit run: digits with single underscores allowed
between digits (CPython 3.6+ literal syntax). -/
def pyDigitsTail : List Char → Bool
  | [] => true
  | '_' :: rest =>
    match rest with
    | [] => false
    | c :: _ => c.isDigit && pyDigitsTail rest
  | c :: rest => c.isDigit && pyDigitsTail rest

/-- A valid unsigned digit run for `int()`: nonempty, starts with a digit,
single underscores only between digits. -/
def pyDigits : List Char → Bool
  | [] => false
  | c :: rest => c.isDigit && pyDigitsTail rest

/-- Strip leading and trailing whitespace (ASCII model of `str.strip()`). -/
def pyStrip (l : List Char) : List Char :=
  ((l.dropWhile Char.isWhitespace).reverse.dropWhile Char.isWhitespace).reverse

/-- Numeric value of a digit run, ignoring underscores. -/
def digitsVal (l : List Char) : Nat :=
  (l.filter (fun c => c != '_')).foldl (fun n c => 10 * n + (c.toNat - '0'.toNat)) 0

/-- Model of CPython `int(s)` on a string: optional surrounding whitespace,
optional single sign, base-10 digits with single underscores between digits;
`none` models the `ValueError`.  (Non-ASCII decimal digits and exotic
whitespace accepted by CPython are not modelled.) -/
def pyInt (l : List Char) : Option Int :=
  match pyStrip l with
  | '+' :: rest => if pyDigits rest then some (Int.ofNat (digitsVal rest)) else none
  | '-' :: rest => if pyDigits rest then some (-(Int.ofNat (digitsVal rest))) else none
  | rest => if pyDigits rest then some (Int.ofNat (digitsVal rest)) else none

/-! ## URLs (`urlobject.URLObject` model) -/

/-- A URL, by its `urlsplit` components.  `urlobject.URLObject` is a string
subclass that re-parses itself on each operation; the components are the
normal form, and the `urls_seen` string equality becomes component equality. -/
structure URL where
  scheme : String
  netloc : String
  path : String
  query : String
  fragment : String
deriving DecidableEq, Repr

/-- Convenience constructor for concrete URLs. -/
def mkUrl (scheme netloc path query fragment : String) : URL :=
  ⟨scheme, netloc, path, query, fragment⟩

/-! ### `urlobject.URLPath` -/

namespace URLPath

/-- Model of `URLPath.segments`: split the path on `/`, percent-decode each
field, and drop a leading empty field (from a leading slash). -/
def segments (p : String) : List (List Char) :=
  let segs := (splitP (fun c => c == '/') p.data).map pathDecode
  match segs with
  | [] :: rest => rest
  | s => s

/-- Model of `URLPath.is_leaf`: the path is nonempty and its last segment is
nonempty (it does not end in `/`). -/
def is_leaf (p : String) : Bool :=
  p != "" && ((segments p).getLast? != some ([] : List Char))

/-- Model of `URLPath.parent` (`urljoin` of the path with `'.'` for leaves and
`'..'` otherwise): drop the last segment, keeping a trailing slash.  The model
covers paths containing a `/` and no `.`/`..` segments — the only shapes this
pipeline ever feeds to `parent` (six-segment courseware paths); `urljoin`'s
dot-segment resolution on other inputs is not modelled. -/
def parent (p : String) : String :=
  let raw := splitP (fun c => c == '/') p.data
  if is_leaf p then ⟨joinChar '/' raw.dropLast ++ ['/']⟩
  else ⟨joinChar '/' (raw.dropLast.dropLast) ++ ['/']⟩

end URLPath

/-! ### `urlobject.QueryString` -/

/-- Field separators of `QueryString.list`: `re.split(r'[\&\;]', ...)`. -/
def isQuerySep (c : Char) : Bool := c == '&' || c == ';'

/-- Decode one `name=value` field as `QueryString.list` does: split on the
first `=` (absent `=` gives a `None` value), then `unquote_plus` each part. -/
def parseField (f : List Char) : List Char × Option (List Char) :=
  match splitFirst '=' f with
  | none => (qsDecode f, none)
  | some (n, v) => (qsDecode n, some (qsDecode v))

/-- Model of `QueryString.list`: `[]` for the empty string, otherwise the
decoded `(name, value)` fields between `&`/`;` separators. -/
def qsList (q : List Char) : List (List Char × Option (List Char)) :=
  if q = [] then [] else (splitP isQuerySep q).map parseField

/-- Re-encode one parameter as `QueryString.add_param` does. -/
def encodeParam : List Char × Option (List Char) → List Char
  | (n, none) => qsEncode n
  | (n, some v) => qsEncode n ++ '=' :: qsEncode v

/-- One `add_param` step: append with `&` unless the accumulator is empty. -/
def addParam (qs p : List Char) : List Char :=
  if qs = [] then p else qs ++ '&' :: p

/-- Model of rebuilding a query string by folding `add_param` over a parameter
list, as `QueryString.del_param` does. -/
def qsUnparse (ps : List (List Char × Option (List Char))) : List Char :=
  ps.foldl (fun qs pr => addParam qs (encodeParam pr)) []

/-! ### `urlobject.URLObject` methods used by the source -/

namespace URL

/-- Model of `URLObject.without_query`. -/
def without_query (u : URL) : URL := { u with query := "" }

/-- Model of `URLObject.with_path`. -/
def with_path (u : URL) (p : String) : URL := { u with path := p }

/-- Model of `URLObject.parent` (`with_path` of the path's parent). -/
def parent (u : URL) : URL := u.with_path (URLPath.parent u.path)

/-- Model of `URLObject.del_query_param name` (`QueryString.del_param`):
parse the query, drop every parameter with the given (decoded) name, and
re-encode the rest. -/
def del_query_param (u : URL) (name : String) : URL :=
  { u with query := ⟨qsUnparse ((qsList u.query.data).filter
      (fun pr => !(pr.1 == name.data)))⟩ }

/-- Membership of a key in `URLObject.query_dict` (the dict built from
`QueryString.list`): some parsed parameter has that name. -/
def query_dict_contains (u : URL) (name : String) : Bool :=
  (qsList u.query.data).any (fun pr => pr.1 == name.data)

/-- Model of `str.startswith` for the path prefix test. -/
def path_startswith (u : URL) (pre : String) : Bool :=
  pre.data.isPrefixOf u.path.data

end URL

/-! ## `DuplicatesPipeline` -/

namespace DuplicatesPipeline

/-- `self.urls_seen = set()` in `__init__`: the seen set starts empty.  The
set of canonical URLs is modelled as a list of distinct elements. -/
def initial_seen : List URL := []

/-- `DuplicatesPipeline.clean_url`: remove the query string. -/
def clean_url (url : URL) : URL := url.without_query

/-- `DuplicatesPipeline.is_sequence_start_page`: the decoded path has exactly
six segments, segment 0 is `courses`, segment 2 is `courseware`, and the last
segment is the literal `1`. -/
def is_sequence_start_page (url : URL) : Bool :=
  let segs := URLPath.segments url.path
  segs.length == 6 && segs[0]? == some "courses".data
    && segs[2]? == some "courseware".data && segs[5]? == some "1".data

/-- The canonical form `process_item` compares against `urls_seen`: the
cleaned URL, collapsed to its parent when it is a sequence-start page. -/
def canonical (item : URL) : URL :=
  let url := clean_url item
  if is_sequence_start_page url then url.parent else url

/-- `DuplicatesPipeline.process_item` as a state transition on `urls_seen`:
`(some item, seen')` returns the item (fresh), `(none, seen)` models
`raise DropItem` (duplicate). -/
def process_item (urls_seen : List URL) (item : URL) : Option URL × List URL :=
  let url := canonical item
  if url ∈ urls_seen then (none, urls_seen)
  else (some item, url :: urls_seen)

end DuplicatesPipeline

/-! ## `DropDRFPipeline` -/

namespace DropDRFPipeline

/-- `DropDRFPipeline.process_item`: drop the item when its path starts with
`/api/`, otherwise return it unchanged.  The pipeline keeps no state. -/
def process_item (item : URL) : Option URL :=
  if item.path_startswith "/api/" then none else some item

end DropDRFPipeline

/-! ## `ActivateBlockIdPipeline` -/

namespace ActivateBlockIdPipeline

/-- `self.urls_seen = set()` in `__init__`. -/
def initial_seen : List URL := []

/-- Model of `url.path.rsplit("/", 1)` together with the two-name unpacking
`before, after = ...`: `none` when the path contains no `/` (one field, so
the unpacking raises `ValueError`), otherwise the text before and after the
last slash. -/
def rsplitSlash1 (p : String) : Option (List Char × List Char) :=
  let raw := splitP (fun c => c == '/') p.data
  if raw.length ≤ 1 then none
  else some (joinChar '/' raw.dropLast, (raw.getLast?).getD [])

/-- `ActivateBlockIdPipeline.clean_url`: strip the `activate_block_id`
parameter; then split the path at the last `/` and, when the trailing part
parses as an integer, replace it by the empty string; rejoin with `/`.
`none` models the uncaught `ValueError` of the unpacking when the path has no
slash (the `try` only guards `int(after)`). -/
def clean_url (url : URL) : Option URL :=
  let url := url.del_query_param "activate_block_id"
  match rsplitSlash1 url.path with
  | none => none
  | some (before, after) =>
    let after := match pyInt after with
      | some _ => ([] : List Char)
      | none => after
    some (url.with_path ⟨before ++ '/' :: after⟩)

/-- `ActivateBlockIdPipeline.process_item`: items without the
`activate_block_id` query parameter pass through untouched; otherwise gate the
cleaned URL on `urls_seen`.  The outer `none` models an exception escaping the
method (from `clean_url`); inner `none` models `raise DropItem`. -/
def process_item (urls_seen : List URL) (item : URL) :
    Option (Option URL × List URL) :=
  if item.query_dict_contains "activate_block_id" then
    match clean_url item with
    | none => none
    | some url =>
      if url ∈ urls_seen then some (none, urls_seen)
      else some (some item, url :: urls_seen)
  else some (some item, urls_seen)

end ActivateBlockIdPipeline

/-! ## Policy A (spec §4.2), absent from `src/` -/

/-- Modelled from the spec: the repository's alternate redirect-param
variant of `DuplicatesPipeline.clean_url` (spec §4.2 Policy A), whose code is
not under `src/`: the canonical form is the input URL with the single named
query parameter `next` removed (via `URLObject.del_query_param`), all other
query parameters retained. -/
def policyA_clean_url (url : URL) : URL := url.del_query_param "next"

end Pa11y

namespace Pa11y

/-! ## Lemmas: splitting and joining -/

theorem consHead_ne_nil (c : Char) (r : List (List Char)) : consHead c r ≠ [] := by
  cases r <;> simp [consHead]

theorem splitP_ne_nil (isSep : Char → Bool) (l : List Char) : splitP isSep l ≠ [] := by
  induction l with
  | nil => simp [splitP]
  | cons c rest ih =>
    simp only [splitP]
    split
    · simp
    · exact consHead_ne_nil c _

theorem consHead_append (c : Char) (r s : List (List Char)) (h : r ≠ []) :
    consHead c (r ++ s) = consHead c r ++ s := by
  cases r with
  | nil => exact absurd rfl h
  | cons h t => simp [consHead]

theorem splitP_sep_append (isSep : Char → Bool) (x y : List Char) (c : Char)
    (hc : isSep c = true) :
    splitP isSep (x ++ c :: y) = splitP isSep x ++ splitP isSep y := by
  induction x with
  | nil => simp [splitP, hc]
  | cons d x' ih =>
    by_cases hd : isSep d
    · simp only [List.cons_append, splitP, hd, if_true]
      simpa using ih
    · simp only [List.cons_append, splitP, hd, Bool.false_eq_true, if_false, List.append_eq]
      rw [ih, consHead_append _ _ _ (splitP_ne_nil isSep x')]

theorem splitP_sepFree (isSep : Char → Bool) (x : List Char)
    (h : ∀ c ∈ x, isSep c = false) : splitP isSep x = [x] := by
  induction x with
  | nil => simp [splitP]
  | cons c x' ih =>
    have hc : isSep c = false := h c (by simp)
    have := ih (fun d hd => h d (by simp [hd]))
    simp [splitP, hc, this, consHead]

theorem splitP_mem_sepFree (isSep : Char → Bool) (l : List Char) :
    ∀ s ∈ splitP isSep l, ∀ c ∈ s, isSep c = false := by
  induction l with
  | nil =>
    intro s hs c hc
    simp only [splitP, List.mem_singleton] at hs
    subst hs
    simp at hc
  | cons d rest ih =>
    intro s hs c hc
    simp only [splitP] at hs
    by_cases hd : isSep d
    · rw [if_pos hd] at hs
      rcases List.mem_cons.mp hs with h | h
      · subst h; simp at hc
      · exact ih s h c hc
    · rw [if_neg hd] at hs
      rcases hr : splitP isSep rest with _ | ⟨h0, t0⟩
      · exact absurd hr (splitP_ne_nil isSep rest)
      · rw [hr, consHead] at hs
        rcases List.mem_cons.mp hs with h | h
        · subst h
          rcases List.mem_cons.mp hc with hc | hc
          · subst hc; simpa using hd
          · exact ih h0 (by rw [hr]; exact List.mem_cons_self h0 t0) c hc
        · exact ih s (by rw [hr]; exact List.mem_cons_of_mem h0 h) c hc

theorem joinChar_cons (sep : Char) (x : List Char) (xs : List (List Char)) (h : xs ≠ []) :
    joinChar sep (x :: xs) = x ++ sep :: joinChar sep xs := by
  cases xs with
  | nil => exact absurd rfl h
  | cons y ys => rfl

theorem joinChar_consHead (sep c : Char) (r : List (List Char)) (h : r ≠ []) :
    joinChar sep (consHead c r) = c :: joinChar sep r := by
  cases r with
  | nil => exact absurd rfl h
  | cons h0 t0 =>
    cases t0 with
    | nil => rfl
    | cons h1 t1 => rfl

theorem joinChar_splitP (sep : Char) (l : List Char) :
    joinChar sep (splitP (fun c => c == sep) l) = l := by
  induction l with
  | nil => rfl
  | cons c rest ih =>
    simp only [splitP]
    by_cases hc : c = sep
    · have hbeq : (c == sep) = true := by simp [hc]
      rw [if_pos hbeq, joinChar_cons sep [] _ (splitP_ne_nil _ rest), ih]
      simp [hc]
    · have hbeq : (c == sep) = false := by simp [hc]
      rw [if_neg (by simp [hbeq]), joinChar_consHead sep c _ (splitP_ne_nil _ rest), ih]

theorem splitP_joinChar (sep : Char) (xs : List (List Char)) (hne : xs ≠ [])
    (hfree : ∀ x ∈ xs, ∀ c ∈ x, (c == sep) = false) :
    splitP (fun c => c == sep) (joinChar sep xs) = xs := by
  induction xs with
  | nil => exact absurd rfl hne
  | cons x xs' ih =>
    cases xs' with
    | nil =>
      simp only [joinChar]
      exact splitP_sepFree _ x (fun c hc => hfree x (by simp) c hc)
    | cons y ys =>
      rw [joinChar_cons sep x _ (by simp)]
      rw [splitP_sep_append _ _ _ sep (by simp)]
      rw [splitP_sepFree _ x (fun c hc => hfree x (by simp) c hc)]
      rw [ih (by simp) (fun z hz c hc => hfree z (by simp [hz]) c hc)]
      simp

theorem joinChar_concat (sep : Char) (A : List (List Char)) (y : List Char) (h : A ≠ []) :
    joinChar sep (A ++ [y]) = joinChar sep A ++ sep :: y := by
  induction A with
  | nil => exact absurd rfl h
  | cons x A' ih =>
    cases A' with
    | nil => rfl
    | cons z zs =>
      rw [List.cons_append, joinChar_cons sep x _ (by simp),
        joinChar_cons sep x _ (by simp), ih (by simp)]
      simp

theorem splitP_length_two (isSep : Char → Bool) (l : List Char) (c : Char)
    (hc : c ∈ l) (hsep : isSep c = true) : 2 ≤ (splitP isSep l).length := by
  induction l with
  | nil => simp at hc
  | cons d rest ih =>
    simp only [splitP]
    rcases List.mem_cons.mp hc with hc | hc
    · subst hc
      rw [if_pos hsep]
      have h1 : 0 < (splitP isSep rest).length :=
        List.length_pos.mpr (splitP_ne_nil isSep rest)
      simp only [List.length_cons]
      omega
    · by_cases hd : isSep d
      · rw [if_pos hd]
        have := ih hc
        simp only [List.length_cons]
        omega
      · rw [if_neg hd]
        rcases hr : splitP isSep rest with _ | ⟨h0, t0⟩
        · exact absurd hr (splitP_ne_nil isSep rest)
        · have := ih hc
          rw [hr] at this
          rw [consHead]
          simpa using this

end Pa11y

namespace Pa11y

/-! ## Lemmas: percent codec -/

theorem pathDecode_cons_ne (c : Char) (l : List Char) (h : c ≠ '%') :
    pathDecode (c :: l) = c :: pathDecode l := by
  rw [pathDecode.eq_def]
  simp [h]

theorem pathDecode_pct_hex (a b : Char) (t : List Char)
    (ha : isHexDigitChar a = true) (hb : isHexDigitChar b = true) :
    pathDecode ('%' :: a :: b :: t) =
      Char.ofNat (16 * hexVal a + hexVal b) :: pathDecode t := by
  simp [pathDecode, ha, hb]

theorem hexDigitChar_isAlphanum (n : Nat) : (hexDigitChar n).isAlphanum = true := by
  by_cases h : n < 16
  · exact (by decide : ∀ m, m < 16 → (hexDigitChar m).isAlphanum = true) n h
  · unfold hexDigitChar
    rw [List.getD_eq_default]
    · decide
    · simpa using Nat.le_of_not_lt h

theorem hexVal_hexDigitChar (n : Nat) (h : n < 16) : hexVal (hexDigitChar n) = n :=
  (by decide : ∀ m, m < 16 → hexVal (hexDigitChar m) = m) n h

theorem isHexDigitChar_hexDigitChar (n : Nat) (h : n < 16) :
    isHexDigitChar (hexDigitChar n) = true :=
  (by decide : ∀ m, m < 16 → isHexDigitChar (hexDigitChar m) = true) n h

theorem isAlphanum_not_special (d : Char) (h : d.isAlphanum = true) :
    d ≠ '&' ∧ d ≠ ';' ∧ d ≠ '=' ∧ d ≠ '+' ∧ d ≠ '%' := by
  refine ⟨?_, ?_, ?_, ?_, ?_⟩ <;> (rintro rfl; exact absurd h (by decide))

theorem qsSafeChar_not_special (c : Char) (h : qsSafeChar c = true) :
    c ≠ '&' ∧ c ≠ ';' ∧ c ≠ '=' ∧ c ≠ '+' ∧ c ≠ '%' := by
  refine ⟨?_, ?_, ?_, ?_, ?_⟩ <;> (rintro rfl; exact absurd h (by decide))

theorem qsEncodeChar_ne_nil (c : Char) : qsEncodeChar c ≠ [] := by
  unfold qsEncodeChar
  split_ifs <;> simp

theorem mem_qsEncodeChar_not_special (c d : Char) (hd : d ∈ qsEncodeChar c) :
    d ≠ '&' ∧ d ≠ ';' ∧ d ≠ '=' := by
  unfold qsEncodeChar at hd
  split_ifs at hd with h1 h2 h3
  · simp only [List.mem_singleton] at hd
    subst hd
    refine ⟨by decide, by decide, by decide⟩
  · simp only [List.mem_singleton] at hd
    subst hd
    have := qsSafeChar_not_special d h2
    exact ⟨this.1, this.2.1, this.2.2.1⟩
  · simp only [List.mem_cons, List.not_mem_nil, or_false] at hd
    rcases hd with rfl | rfl | rfl
    · exact ⟨by decide, by decide, by decide⟩
    · have := isAlphanum_not_special _ (hexDigitChar_isAlphanum (c.toNat / 16))
      exact ⟨this.1, this.2.1, this.2.2.1⟩
    · have := isAlphanum_not_special _ (hexDigitChar_isAlphanum (c.toNat % 16))
      exact ⟨this.1, this.2.1, this.2.2.1⟩
  · simp only [List.mem_singleton] at hd
    subst hd
    refine ⟨?_, ?_, ?_⟩ <;> (rintro rfl; exact absurd (by decide : Char.toNat _ < 256) h3)

theorem mem_qsEncode_not_special (n : List Char) (d : Char) (hd : d ∈ qsEncode n) :
    d ≠ '&' ∧ d ≠ ';' ∧ d ≠ '=' := by
  unfold qsEncode at hd
  rcases List.mem_flatMap.mp hd with ⟨c, _, hc⟩
  exact mem_qsEncodeChar_not_special c d hc

theorem pathDecode_qsEncodeChar (c : Char) (t : List Char) :
    pathDecode ((qsEncodeChar c).map plusToSpace ++ t) = c :: pathDecode t := by
  unfold qsEncodeChar
  split_ifs with h1 h2 h3
  · subst h1
    show pathDecode (plusToSpace '+' :: t) = ' ' :: pathDecode t
    rw [show plusToSpace '+' = ' ' from rfl]
    exact pathDecode_cons_ne ' ' t (by decide)
  · have hs := qsSafeChar_not_special c h2
    show pathDecode (plusToSpace c :: t) = c :: pathDecode t
    rw [show plusToSpace c = c from if_neg hs.2.2.2.1]
    exact pathDecode_cons_ne c t hs.2.2.2.2
  · have hd1 := hexDigitChar_isAlphanum (c.toNat / 16)
    have hd2 := hexDigitChar_isAlphanum (c.toNat % 16)
    have e1 : plusToSpace '%' = '%' := rfl
    have e2 : plusToSpace (hexDigitChar (c.toNat / 16)) = hexDigitChar (c.toNat / 16) :=
      if_neg (isAlphanum_not_special _ hd1).2.2.2.1
    have e3 : plusToSpace (hexDigitChar (c.toNat % 16)) = hexDigitChar (c.toNat % 16) :=
      if_neg (isAlphanum_not_special _ hd2).2.2.2.1
    simp only [List.map_cons, List.map_nil, e1, e2, e3, List.cons_append, List.nil_append]
    rw [pathDecode_pct_hex _ _ t
      (isHexDigitChar_hexDigitChar _ (by omega))
      (isHexDigitChar_hexDigitChar _ (Nat.mod_lt _ (by omega)))]
    rw [hexVal_hexDigitChar _ (by omega), hexVal_hexDigitChar _ (Nat.mod_lt _ (by omega))]
    rw [show 16 * (c.toNat / 16) + c.toNat % 16 = c.toNat from by omega]
    rw [Char.ofNat_toNat]
  · have hplus : c ≠ '+' := by rintro rfl; exact absurd (by decide : Char.toNat '+' < 256) h3
    have hpct : c ≠ '%' := by rintro rfl; exact absurd (by decide : Char.toNat '%' < 256) h3
    show pathDecode (plusToSpace c :: t) = c :: pathDecode t
    rw [show plusToSpace c = c from if_neg hplus]
    exact pathDecode_cons_ne c t hpct

theorem pathDecode_qsEncode_append (s t : List Char) :
    pathDecode ((qsEncode s).map plusToSpace ++ t) = s ++ pathDecode t := by
  induction s with
  | nil => simp [qsEncode]
  | cons c s' ih =>
    have : qsEncode (c :: s') = qsEncodeChar c ++ qsEncode s' := by
      simp [qsEncode]
    rw [this, List.map_append, List.append_assoc, pathDecode_qsEncodeChar, ih]
    rfl

theorem qsDecode_qsEncode (s : List Char) : qsDecode (qsEncode s) = s := by
  unfold qsDecode
  have := pathDecode_qsEncode_append s []
  simpa [pathDecode] using this

theorem qsEncode_eq_nil_iff (n : List Char) : qsEncode n = [] ↔ n = [] := by
  cases n with
  | nil => simp [qsEncode]
  | cons c t =>
    simp only [qsEncode, List.flatMap_cons]
    constructor
    · intro h
      exact absurd (List.append_eq_nil.mp h).1 (qsEncodeChar_ne_nil c)
    · intro h; cases h

end Pa11y

namespace Pa11y

/-! ## Lemmas: query-string parsing and re-encoding -/

theorem splitFirst_of_no_sep (sep : Char) (l : List Char) (h : ∀ c ∈ l, c ≠ sep) :
    splitFirst sep l = none := by
  induction l with
  | nil => rfl
  | cons c rest ih =>
    simp only [splitFirst]
    rw [if_neg (h c (by simp)), ih (fun d hd => h d (by simp [hd]))]

theorem splitFirst_mid (sep : Char) (x y : List Char) (h : ∀ c ∈ x, c ≠ sep) :
    splitFirst sep (x ++ sep :: y) = some (x, y) := by
  induction x with
  | nil => simp [splitFirst]
  | cons c x' ih =>
    simp only [List.cons_append, splitFirst, List.append_eq]
    rw [if_neg (h c (by simp)), ih (fun d hd => h d (by simp [hd]))]

theorem parseField_encodeParam (p : List Char × Option (List Char)) :
    parseField (encodeParam p) = p := by
  obtain ⟨n, v⟩ := p
  cases v with
  | none =>
    show parseField (qsEncode n) = (n, none)
    unfold parseField
    rw [splitFirst_of_no_sep '=' (qsEncode n)
      (fun c hc => (mem_qsEncode_not_special n c hc).2.2)]
    rw [qsDecode_qsEncode]
  | some w =>
    show parseField (qsEncode n ++ '=' :: qsEncode w) = (n, some w)
    unfold parseField
    rw [splitFirst_mid '=' _ _ (fun c hc => (mem_qsEncode_not_special n c hc).2.2)]
    show (qsDecode (qsEncode n), some (qsDecode (qsEncode w))) = (n, some w)
    rw [qsDecode_qsEncode, qsDecode_qsEncode]

theorem encodeParam_eq_nil_iff (p : List Char × Option (List Char)) :
    encodeParam p = [] ↔ p = ([], none) := by
  obtain ⟨n, v⟩ := p
  cases v with
  | none =>
    show qsEncode n = [] ↔ _
    rw [qsEncode_eq_nil_iff]
    simp
  | some w =>
    show qsEncode n ++ '=' :: qsEncode w = [] ↔ _
    simp

theorem isQuerySep_of_encoded (p : List Char × Option (List Char)) (d : Char)
    (hd : d ∈ encodeParam p) : isQuerySep d = false := by
  obtain ⟨n, v⟩ := p
  cases v with
  | none =>
    have := mem_qsEncode_not_special n d hd
    simp [isQuerySep, this.1, this.2.1]
  | some w =>
    rcases List.mem_append.mp hd with h | h
    · have := mem_qsEncode_not_special n d h
      simp [isQuerySep, this.1, this.2.1]
    · rcases List.mem_cons.mp h with rfl | h
      · decide
      · have := mem_qsEncode_not_special w d h
        simp [isQuerySep, this.1, this.2.1]

theorem foldl_addParam_ne_nil (qs : List Char) (hqs : qs ≠ [])
    (ps : List (List Char × Option (List Char))) :
    ps.foldl (fun acc pr => addParam acc (encodeParam pr)) qs =
      qs ++ ps.flatMap (fun pr => '&' :: encodeParam pr) := by
  induction ps generalizing qs with
  | nil => simp
  | cons p ps' ih =>
    simp only [List.foldl_cons, List.flatMap_cons]
    rw [show addParam qs (encodeParam p) = qs ++ '&' :: encodeParam p from if_neg hqs]
    rw [ih _ (by simp)]
    simp

theorem qsUnparse_cons (p : List Char × Option (List Char))
    (ps : List (List Char × Option (List Char))) :
    qsUnparse (p :: ps) =
      if encodeParam p = [] then qsUnparse ps
      else encodeParam p ++ ps.flatMap (fun pr => '&' :: encodeParam pr) := by
  unfold qsUnparse
  simp only [List.foldl_cons]
  by_cases h : encodeParam p = []
  · rw [if_pos h, show addParam [] (encodeParam p) = [] from by simp [addParam, h]]
  · rw [if_neg h, show addParam [] (encodeParam p) = encodeParam p from if_pos rfl]
    exact foldl_addParam_ne_nil _ h ps

theorem splitQ_flatMap (f : List Char) (hf : ∀ c ∈ f, isQuerySep c = false)
    (ps : List (List Char × Option (List Char))) :
    splitP isQuerySep (f ++ ps.flatMap (fun pr => '&' :: encodeParam pr)) =
      f :: ps.map encodeParam := by
  induction ps generalizing f with
  | nil => simp [splitP_sepFree _ f hf]
  | cons p ps' ih =>
    simp only [List.flatMap_cons, List.map_cons]
    rw [show f ++ ('&' :: encodeParam p ++ ps'.flatMap (fun pr => '&' :: encodeParam pr)) =
        f ++ '&' :: (encodeParam p ++ ps'.flatMap (fun pr => '&' :: encodeParam pr)) from by simp]
    rw [splitP_sep_append _ _ _ '&' (by decide)]
    rw [splitP_sepFree _ f hf]
    rw [ih (encodeParam p) (isQuerySep_of_encoded p)]
    simp

theorem qsList_qsUnparse (L : List (List Char × Option (List Char))) :
    qsList (qsUnparse L) = L.dropWhile (fun pr => pr == ([], none)) := by
  induction L with
  | nil => rfl
  | cons p ps ih =>
    rw [qsUnparse_cons]
    by_cases h : encodeParam p = []
    · have hp : p = ([], none) := (encodeParam_eq_nil_iff p).mp h
      rw [if_pos h, ih, List.dropWhile_cons_of_pos (by simp [hp])]
    · have hp : p ≠ ([], none) := fun he => h ((encodeParam_eq_nil_iff p).mpr he)
      rw [if_neg h, List.dropWhile_cons_of_neg (by simpa using hp)]
      unfold qsList
      rw [if_neg (by simp [h])]
      rw [splitQ_flatMap (encodeParam p) (isQuerySep_of_encoded p) ps]
      simp only [List.map_cons, parseField_encodeParam]
      congr 1
      rw [List.map_map]
      have : ∀ q ∈ ps, (parseField ∘ encodeParam) q = id q := by
        intro q hq
        simp [parseField_encodeParam]
      rw [List.map_congr_left this, List.map_id]

theorem qsUnparse_dropWhile (L : List (List Char × Option (List Char))) :
    qsUnparse (L.dropWhile (fun pr => pr == ([], none))) = qsUnparse L := by
  induction L with
  | nil => rfl
  | cons p ps ih =>
    by_cases h : p = ([], none)
    · rw [List.dropWhile_cons_of_pos (by simp [h]), ih, qsUnparse_cons,
        if_pos ((encodeParam_eq_nil_iff p).mpr h)]
    · rw [List.dropWhile_cons_of_neg (by simpa using h)]

end Pa11y

namespace Pa11y

/-! ## Lemmas: `del_query_param` -/

theorem del_query_param_components (u : URL) (name : String) :
    (u.del_query_param name).scheme = u.scheme ∧
    (u.del_query_param name).netloc = u.netloc ∧
    (u.del_query_param name).path = u.path ∧
    (u.del_query_param name).fragment = u.fragment :=
  ⟨rfl, rfl, rfl, rfl⟩

theorem qsList_del_query_param (u : URL) (name : String) :
    qsList (u.del_query_param name).query.data =
      ((qsList u.query.data).filter (fun pr => !(pr.1 == name.data))).dropWhile
        (fun pr => pr == ([], none)) := by
  show qsList (qsUnparse _) = _
  exact qsList_qsUnparse _

theorem filter_dropWhile_filter (P : List Char × Option (List Char) → Bool)
    (L : List (List Char × Option (List Char))) :
    ((L.filter P).dropWhile (fun pr => pr == ([], none))).filter P =
      (L.filter P).dropWhile (fun pr => pr == ([], none)) := by
  apply List.filter_eq_self.mpr
  intro a ha
  have hsub : List.Sublist ((L.filter P).dropWhile (fun pr => pr == ([], none)))
      (L.filter P) := List.dropWhile_sublist _
  exact List.of_mem_filter (hsub.mem ha)

theorem del_query_param_idem (u : URL) (name : String) :
    (u.del_query_param name).del_query_param name = u.del_query_param name := by
  show ({ u.del_query_param name with
    query := ⟨qsUnparse ((qsList (u.del_query_param name).query.data).filter
      (fun pr => !(pr.1 == name.data)))⟩ } : URL) = _
  rcases hu : u.del_query_param name with ⟨s, n, p, q, f⟩
  simp only [URL.mk.injEq, and_true, true_and]
  have hq : q = ⟨qsUnparse ((qsList u.query.data).filter
      (fun pr => !(pr.1 == name.data)))⟩ := by
    have := congrArg URL.query hu
    exact this.symm.trans rfl
  rw [hq]
  show (⟨qsUnparse ((qsList (String.mk (qsUnparse _)).data).filter _)⟩ : String) = _
  rw [show (String.mk (qsUnparse ((qsList u.query.data).filter
      (fun pr => !(pr.1 == name.data))))).data =
      qsUnparse ((qsList u.query.data).filter (fun pr => !(pr.1 == name.data))) from rfl]
  rw [qsList_qsUnparse]
  rw [filter_dropWhile_filter]
  rw [qsUnparse_dropWhile]

end Pa11y

namespace Pa11y

/-! ## Lemmas: path segments, sequence shape, parent -/

theorem segments_match (p : String) :
    URLPath.segments p =
      (match (splitP (fun c => c == '/') p.data).map pathDecode with
       | [] :: rest => rest
       | s => s) := rfl

theorem seq_shape_parent (p : String)
    (h6 : (URLPath.segments p).length = 6)
    (h5 : (URLPath.segments p)[5]? = some ['1']) :
    (URLPath.segments (URLPath.parent p)).getLast? = some ([] : List Char) ∧
      URLPath.segments (URLPath.parent p) ≠ [] := by
  have hp : p ≠ "" := by
    rintro rfl
    rw [show URLPath.segments "" = [] from rfl] at h6
    simp at h6
  have hlast : (URLPath.segments p).getLast? = some ['1'] := by
    rw [List.getLast?_eq_getElem?, h6]
    exact h5
  have hleaf : URLPath.is_leaf p = true := by
    unfold URLPath.is_leaf
    rw [hlast]
    simp [hp]
  have hrawlen : 6 ≤ (splitP (fun c => c == '/') p.data).length := by
    rcases hmatch : (splitP (fun c => c == '/') p.data).map pathDecode with _ | ⟨d0, ds⟩
    · exact absurd (List.map_eq_nil_iff.mp hmatch) (splitP_ne_nil _ _)
    · rw [segments_match, hmatch] at h6
      have hlen : ((splitP (fun c => c == '/') p.data).map pathDecode).length =
          ds.length + 1 := by rw [hmatch]; rfl
      rw [List.length_map] at hlen
      rcases d0 with _ | ⟨c0, d0'⟩
      · simp only [] at h6
        omega
      · simp only [List.length_cons] at h6
        omega
  have hdrop_ne : (splitP (fun c => c == '/') p.data).dropLast ≠ [] := by
    intro hcon
    have h0 : (splitP (fun c => c == '/') p.data).dropLast.length = 0 := by
      rw [hcon]; rfl
    rw [List.length_dropLast] at h0
    omega
  have hparent : URLPath.parent p =
      ⟨joinChar '/' (splitP (fun c => c == '/') p.data).dropLast ++ ['/']⟩ := by
    unfold URLPath.parent
    rw [if_pos hleaf]
  have hsplit2 : splitP (fun c => c == '/') (URLPath.parent p).data =
      (splitP (fun c => c == '/') p.data).dropLast ++ [[]] := by
    rw [hparent]
    rw [show (String.mk (joinChar '/' (splitP (fun c => c == '/') p.data).dropLast
        ++ ['/'])).data =
        joinChar '/' (splitP (fun c => c == '/') p.data).dropLast ++ '/' :: [] from rfl]
    rw [splitP_sep_append _ _ _ '/' (by decide)]
    rw [splitP_joinChar '/' _ hdrop_ne (fun x hx c hc =>
      splitP_mem_sepFree _ p.data x ((List.dropLast_sublist _).mem hx) c hc)]
    rfl
  have hsegpar : URLPath.segments (URLPath.parent p) =
      (match ((splitP (fun c => c == '/') p.data).dropLast.map pathDecode ++ [[]]) with
       | [] :: rest => rest
       | s => s) := by
    rw [segments_match (URLPath.parent p), hsplit2, List.map_append]
    rfl
  rcases hA : (splitP (fun c => c == '/') p.data).dropLast.map pathDecode with _ | ⟨a0, As⟩
  · exact absurd (List.map_eq_nil_iff.mp hA) hdrop_ne
  · rw [hsegpar, hA]
    rcases a0 with _ | ⟨c0, a0'⟩
    · constructor
      · show (As ++ [[]]).getLast? = some []
        exact List.getLast?_concat _
      · show As ++ [[]] ≠ []
        simp
    · constructor
      · show ((c0 :: a0') :: (As ++ [[]])).getLast? = some []
        rw [show ((c0 :: a0') :: (As ++ [[]])) = ((c0 :: a0') :: As) ++ [[]] from by simp]
        exact List.getLast?_concat _
      · simp

theorem is_seq_def (u : URL) :
    DuplicatesPipeline.is_sequence_start_page u =
      (((URLPath.segments u.path).length == 6) &&
       ((URLPath.segments u.path)[0]? == some "courses".data) &&
       ((URLPath.segments u.path)[2]? == some "courseware".data) &&
       ((URLPath.segments u.path)[5]? == some "1".data)) := rfl

theorem is_seq_false_of_last (u : URL)
    (h : (URLPath.segments u.path).getLast? = some ([] : List Char))
    (hne : URLPath.segments u.path ≠ []) :
    DuplicatesPipeline.is_sequence_start_page u = false := by
  rw [is_seq_def]
  by_cases h6 : (URLPath.segments u.path).length = 6
  · have h5 : (URLPath.segments u.path)[5]? = some [] := by
      rw [List.getLast?_eq_getElem?, h6] at h
      exact h
    rw [h5]
    rw [show ((some ([] : List Char)) == some "1".data) = false from by decide]
    simp
  · have : ((URLPath.segments u.path).length == 6) = false := by
      simpa using h6
    rw [this]
    simp

theorem is_seq_clean (u : URL) :
    DuplicatesPipeline.is_sequence_start_page (DuplicatesPipeline.clean_url u) =
      DuplicatesPipeline.is_sequence_start_page u := rfl

theorem canonical_def (u : URL) :
    DuplicatesPipeline.canonical u =
      (if DuplicatesPipeline.is_sequence_start_page u then
        ({ u with query := "", path := URLPath.parent u.path } : URL)
      else { u with query := "" }) := rfl

end Pa11y

namespace Pa11y

/-! ## Lemmas: rsplit and the activation clean-up -/

theorem rsplitSlash1_concat (x y : List Char) (hy : ∀ c ∈ y, (c == '/') = false) :
    ActivateBlockIdPipeline.rsplitSlash1 ⟨x ++ '/' :: y⟩ = some (x, y) := by
  unfold ActivateBlockIdPipeline.rsplitSlash1
  have hsplit : splitP (fun c => c == '/') (String.mk (x ++ '/' :: y)).data =
      splitP (fun c => c == '/') x ++ [y] := by
    rw [show (String.mk (x ++ '/' :: y)).data = x ++ '/' :: y from rfl]
    rw [splitP_sep_append _ _ _ '/' (by decide), splitP_sepFree _ y hy]
  simp only [hsplit]
  have hlen : 1 ≤ (splitP (fun c => c == '/') x).length :=
    List.length_pos.mpr (splitP_ne_nil _ _)
  rw [if_neg (by
    simp only [List.length_append, List.length_cons, List.length_nil]
    omega)]
  rw [List.dropLast_concat, List.getLast?_concat, joinChar_splitP]
  rfl

theorem rsplitSlash1_decomp (p : String) (b a : List Char)
    (h : ActivateBlockIdPipeline.rsplitSlash1 p = some (b, a)) :
    p.data = b ++ '/' :: a ∧ ∀ c ∈ a, (c == '/') = false := by
  unfold ActivateBlockIdPipeline.rsplitSlash1 at h
  by_cases hlen : (splitP (fun c => c == '/') p.data).length ≤ 1
  · rw [if_pos hlen] at h; cases h
  · rw [if_neg hlen] at h
    have hne : splitP (fun c => c == '/') p.data ≠ [] := splitP_ne_nil _ _
    have hglast : (splitP (fun c => c == '/') p.data).getLast? =
        some ((splitP (fun c => c == '/') p.data).getLast hne) :=
      List.getLast?_eq_getLast _ hne
    rw [hglast] at h
    injection h with h
    have hb : joinChar '/' (splitP (fun c => c == '/') p.data).dropLast = b :=
      congrArg Prod.fst h
    have ha : (splitP (fun c => c == '/') p.data).getLast hne = a := by
      have := congrArg Prod.snd h
      simpa using this
    have hdrop_ne : (splitP (fun c => c == '/') p.data).dropLast ≠ [] := by
      intro hcon
      have h0 : (splitP (fun c => c == '/') p.data).dropLast.length = 0 := by
        rw [hcon]; rfl
      rw [List.length_dropLast] at h0
      omega
    constructor
    · have hjoin : p.data = joinChar '/' (splitP (fun c => c == '/') p.data) :=
        (joinChar_splitP '/' p.data).symm
      rw [hjoin]
      conv_lhs => rw [← List.dropLast_append_getLast hne]
      rw [joinChar_concat _ _ _ hdrop_ne, hb, ha]
    · intro c hc
      rw [← ha] at hc
      exact splitP_mem_sepFree _ p.data _ (List.getLast_mem hne) c hc

theorem rsplitSlash1_isSome (p : String) (hc : '/' ∈ p.data) :
    ∃ b a, ActivateBlockIdPipeline.rsplitSlash1 p = some (b, a) := by
  unfold ActivateBlockIdPipeline.rsplitSlash1
  have h2 : 2 ≤ (splitP (fun c => c == '/') p.data).length :=
    splitP_length_two _ _ '/' hc (by decide)
  rw [if_neg (by omega)]
  exact ⟨_, _, rfl⟩

theorem pyInt_nil : pyInt ([] : List Char) = none := rfl

/-! ## Lemmas: canonical form components -/

theorem canonical_components (u : URL) :
    (DuplicatesPipeline.canonical u).scheme = u.scheme ∧
    (DuplicatesPipeline.canonical u).netloc = u.netloc ∧
    (DuplicatesPipeline.canonical u).fragment = u.fragment := by
  rw [canonical_def]
  by_cases h : DuplicatesPipeline.is_sequence_start_page u
  · rw [if_pos h]; exact ⟨rfl, rfl, rfl⟩
  · rw [if_neg h]; exact ⟨rfl, rfl, rfl⟩

end Pa11y

namespace Pa11y

/-! ## Lemmas: stability of the activation clean-up -/

theorem del_query_param_of_del (u w : URL) (name : String)
    (hq : w.query = (u.del_query_param name).query) :
    w.del_query_param name = w := by
  have hkey : qsUnparse ((qsList w.query.data).filter (fun pr => !(pr.1 == name.data))) =
      w.query.data := by
    rw [hq]
    show qsUnparse ((qsList (qsUnparse ((qsList u.query.data).filter
        (fun pr => !(pr.1 == name.data))))).filter (fun pr => !(pr.1 == name.data))) =
      qsUnparse ((qsList u.query.data).filter (fun pr => !(pr.1 == name.data)))
    rw [qsList_qsUnparse, filter_dropWhile_filter, qsUnparse_dropWhile]
  show ({ w with query := ⟨qsUnparse ((qsList w.query.data).filter
      (fun pr => !(pr.1 == name.data)))⟩ } : URL) = w
  rw [show (⟨qsUnparse ((qsList w.query.data).filter
      (fun pr => !(pr.1 == name.data)))⟩ : String) = w.query from by rw [hkey]]

theorem activate_clean_idem (u : URL) :
    (ActivateBlockIdPipeline.clean_url u).bind ActivateBlockIdPipeline.clean_url =
      ActivateBlockIdPipeline.clean_url u := by
  rcases hcl : ActivateBlockIdPipeline.clean_url u with _ | v
  · rfl
  · show ActivateBlockIdPipeline.clean_url v = some v
    unfold ActivateBlockIdPipeline.clean_url at hcl
    simp only [] at hcl
    rcases hrs : ActivateBlockIdPipeline.rsplitSlash1
        (u.del_query_param "activate_block_id").path with _ | ⟨b, a⟩
    · rw [hrs] at hcl; cases hcl
    · rw [hrs] at hcl
      injection hcl with hcl
      have hafree : ∀ c ∈ a, (c == '/') = false :=
        (rsplitSlash1_decomp _ b a hrs).2
      have hvdel : v.del_query_param "activate_block_id" = v := by
        apply del_query_param_of_del u
        rw [← hcl]
        rfl
      have hgoal : ActivateBlockIdPipeline.clean_url v =
          match ActivateBlockIdPipeline.rsplitSlash1 v.path with
          | none => none
          | some (before, after) =>
            some (v.with_path ⟨before ++ '/' ::
              (match pyInt after with | some _ => [] | none => after)⟩) := by
        unfold ActivateBlockIdPipeline.clean_url
        simp only []
        rw [hvdel]
      rcases hpy : pyInt a with _ | k
      · -- non-integer tail: the path was left unchanged
        have hvpath : v.path = ⟨b ++ '/' :: a⟩ := by
          rw [← hcl]
          show String.mk (b ++ '/' :: (match pyInt a with | some _ => [] | none => a)) = _
          rw [hpy]
        rw [hgoal, hvpath, rsplitSlash1_concat b a hafree]
        simp only [hpy]
        rw [show (v.with_path ⟨b ++ '/' :: a⟩ : URL) = v.with_path v.path from by
          rw [hvpath]]
        rfl
      · -- integer tail: it was replaced by the empty segment
        have hvpath : v.path = ⟨b ++ '/' :: []⟩ := by
          rw [← hcl]
          show String.mk (b ++ '/' :: (match pyInt a with | some _ => [] | none => a)) = _
          rw [hpy]
        rw [hgoal, hvpath, rsplitSlash1_concat b [] (by intro c hc; cases hc)]
        simp only [pyInt_nil]
        rw [show (v.with_path ⟨b ++ '/' :: []⟩ : URL) = v.with_path v.path from by
          rw [hvpath]]
        rfl

end Pa11y

namespace Pa11y

/-! ## Lemmas: pipeline steps -/

theorem dup_process_def (seen : List URL) (item : URL) :
    DuplicatesPipeline.process_item seen item =
      if DuplicatesPipeline.canonical item ∈ seen then (none, seen)
      else (some item, DuplicatesPipeline.canonical item :: seen) := rfl

theorem act_process_def (seen : List URL) (item : URL) :
    ActivateBlockIdPipeline.process_item seen item =
      if item.query_dict_contains "activate_block_id" then
        match ActivateBlockIdPipeline.clean_url item with
        | none => none
        | some url =>
          if url ∈ seen then some (none, seen) else some (some item, url :: seen)
      else some (some item, seen) := rfl

theorem is_seq_elim (u : URL) (h : DuplicatesPipeline.is_sequence_start_page u = true) :
    (URLPath.segments u.path).length = 6 ∧ (URLPath.segments u.path)[5]? = some ['1'] := by
  rw [is_seq_def] at h
  simp only [Bool.and_eq_true, beq_iff_eq] at h
  refine ⟨h.1.1.1, ?_⟩
  rw [h.2]

theorem is_seq_parent_false (u v : URL)
    (h : DuplicatesPipeline.is_sequence_start_page u = true)
    (hv : v.path = URLPath.parent u.path) :
    DuplicatesPipeline.is_sequence_start_page v = false := by
  obtain ⟨h6, h5⟩ := is_seq_elim u h
  obtain ⟨hlast, hne⟩ := seq_shape_parent u.path h6 h5
  apply is_seq_false_of_last
  · rw [hv]; exact hlast
  · rw [hv]; exact hne

/-! ## Claims -/

/-- C1: for any two URLs with equal canonical forms under the active policy, feeding
records for them one after the other into the same duplicate-gating stage, starting
from the empty seen set, yields exactly one Fresh outcome (the first record is
returned and its canonical form recorded) and exactly one Duplicate outcome (the
second record is dropped).  Stated for both gating stages: the
`DuplicatesPipeline` gate, and the `ActivateBlockIdPipeline` gate for
marker-bearing records whose clean-up succeeds.  "Either order" is covered because
`u1`, `u2` are universally quantified. -/
theorem claim_C1_dedup_gate :
    (∀ u1 u2 : URL,
      DuplicatesPipeline.canonical u1 = DuplicatesPipeline.canonical u2 →
      DuplicatesPipeline.process_item [] u1 =
        (some u1, [DuplicatesPipeline.canonical u1]) ∧
      (DuplicatesPipeline.process_item
        (DuplicatesPipeline.process_item [] u1).2 u2).1 = none) ∧
    (∀ (u1 u2 c : URL),
      u1.query_dict_contains "activate_block_id" = true →
      u2.query_dict_contains "activate_block_id" = true →
      ActivateBlockIdPipeline.clean_url u1 = some c →
      ActivateBlockIdPipeline.clean_url u2 = some c →
      ActivateBlockIdPipeline.process_item [] u1 = some (some u1, [c]) ∧
      ActivateBlockIdPipeline.process_item [c] u2 = some (none, [c])) := by
  constructor
  · intro u1 u2 hB
    have h1 : DuplicatesPipeline.process_item [] u1 =
        (some u1, [DuplicatesPipeline.canonical u1]) := by
      rw [dup_process_def, if_neg (List.not_mem_nil _)]
    refine ⟨h1, ?_⟩
    rw [h1, dup_process_def, if_pos (by rw [← hB]; exact List.mem_singleton_self _)]
  · intro u1 u2 c hm1 hm2 hc1 hc2
    constructor
    · rw [act_process_def, if_pos hm1, hc1]
      show (if c ∈ ([] : List URL) then some (none, ([] : List URL))
        else some (some u1, [c])) = some (some u1, [c])
      rw [if_neg (List.not_mem_nil _)]
    · rw [act_process_def, if_pos hm2, hc2]
      show (if c ∈ [c] then some (none, [c]) else some (some u2, [c, c])) = some (none, [c])
      rw [if_pos (List.mem_singleton_self _)]

/-- C1 witness: two URLs agreeing up to the query string through the
`DuplicatesPipeline` gate, and two marker-bearing URLs collapsing to the same
cleaned URL through the `ActivateBlockIdPipeline` gate. -/
theorem claim_C1_dedup_gate_witness :
    (DuplicatesPipeline.process_item [] (mkUrl "http" "h" "/p" "a=1" "") =
      (some (mkUrl "http" "h" "/p" "a=1" ""),
        [DuplicatesPipeline.canonical (mkUrl "http" "h" "/p" "a=1" "")]) ∧
     (DuplicatesPipeline.process_item
       (DuplicatesPipeline.process_item [] (mkUrl "http" "h" "/p" "a=1" "")).2
       (mkUrl "http" "h" "/p" "b=2" "")).1 = none) ∧
    (ActivateBlockIdPipeline.process_item [] (mkUrl "http" "h" "/s/42" "activate_block_id=x" "") =
      some (some (mkUrl "http" "h" "/s/42" "activate_block_id=x" ""),
        [mkUrl "http" "h" "/s/" "" ""]) ∧
     ActivateBlockIdPipeline.process_item [mkUrl "http" "h" "/s/" "" ""]
       (mkUrl "http" "h" "/s/" "activate_block_id=y" "") =
      some (none, [mkUrl "http" "h" "/s/" "" ""])) :=
  ⟨claim_C1_dedup_gate.1 (mkUrl "http" "h" "/p" "a=1" "")
      (mkUrl "http" "h" "/p" "b=2" "") (by decide),
   claim_C1_dedup_gate.2 (mkUrl "http" "h" "/s/42" "activate_block_id=x" "")
      (mkUrl "http" "h" "/s/" "activate_block_id=y" "") (mkUrl "http" "h" "/s/" "" "")
      (by decide) (by decide) (by decide) (by decide)⟩

/-- C2: under Policy B, a URL whose decoded path has exactly six segments with
segment 0 `courses`, segment 2 `courseware` and final segment the literal `1`
(the `is_sequence_start_page` shape) has the same canonical form as the same URL
with its path replaced by the parent path; a URL not of that shape has as
canonical form the URL with the query string removed and the path unchanged. -/
theorem claim_C2_sequence_collapse (u : URL) :
    (DuplicatesPipeline.is_sequence_start_page u = true →
      DuplicatesPipeline.canonical u =
        DuplicatesPipeline.canonical (u.with_path (URLPath.parent u.path))) ∧
    (DuplicatesPipeline.is_sequence_start_page u = false →
      DuplicatesPipeline.canonical u = { u with query := "" }) := by
  constructor
  · intro h
    rw [canonical_def u, if_pos h, canonical_def (u.with_path (URLPath.parent u.path))]
    rw [is_seq_parent_false u (u.with_path (URLPath.parent u.path)) h rfl]
    simp only [Bool.false_eq_true, if_false]
    rfl
  · intro h
    rw [canonical_def u, h]
    simp only [Bool.false_eq_true, if_false]

/-- C2 witness: a concrete courseware sequence-start URL collapses to its parent
path, and a plain page URL only loses its query string. -/
theorem claim_C2_sequence_collapse_witness :
    DuplicatesPipeline.canonical (mkUrl "http" "h" "/courses/X/courseware/Y/Z/1" "a=1" "f") =
      DuplicatesPipeline.canonical
        ((mkUrl "http" "h" "/courses/X/courseware/Y/Z/1" "a=1" "f").with_path
          (URLPath.parent (mkUrl "http" "h" "/courses/X/courseware/Y/Z/1" "a=1" "f").path)) ∧
    DuplicatesPipeline.canonical (mkUrl "http" "h" "/page" "a=1" "f") =
      { mkUrl "http" "h" "/page" "a=1" "f" with query := "" } :=
  ⟨(claim_C2_sequence_collapse (mkUrl "http" "h" "/courses/X/courseware/Y/Z/1" "a=1" "f")).1
      (by decide),
   (claim_C2_sequence_collapse (mkUrl "http" "h" "/page" "a=1" "f")).2 (by decide)⟩

/-- C3: the DRF exclusion stage is stateless (it is a pure function of the single
record) and total: a record whose path starts with `/api/` is dropped whatever its
query string is, and any other record passes through unchanged. -/
theorem claim_C3_drf_total (u : URL) (q : String) :
    (u.path_startswith "/api/" = true →
      DropDRFPipeline.process_item { u with query := q } = none) ∧
    (u.path_startswith "/api/" = false →
      DropDRFPipeline.process_item u = some u) := by
  constructor
  · intro h
    unfold DropDRFPipeline.process_item
    rw [show ({ u with query := q } : URL).path_startswith "/api/" =
        u.path_startswith "/api/" from rfl, h]
    simp
  · intro h
    unfold DropDRFPipeline.process_item
    rw [h]
    simp

/-- C3 witness: a DRF URL is dropped regardless of its query string; a page URL
passes through unchanged. -/
theorem claim_C3_drf_total_witness :
    DropDRFPipeline.process_item
      { mkUrl "http" "h" "/api/v1/x" "" "" with query := "format=json" } = none ∧
    DropDRFPipeline.process_item (mkUrl "http" "h" "/page" "next=/x" "") =
      some (mkUrl "http" "h" "/page" "next=/x" "") :=
  ⟨(claim_C3_drf_total (mkUrl "http" "h" "/api/v1/x" "" "") "format=json").1 (by decide),
   (claim_C3_drf_total (mkUrl "http" "h" "/page" "next=/x" "") "").2 (by decide)⟩

/-- C4: canonicalization is idempotent under each policy: the Policy B canonical
form (query strip plus sequence collapse) is a fixed point of itself, and the
activation-marker clean-up, when it succeeds, produces a URL it leaves unchanged
(stated with `Option.bind` so that the failing case is covered as well). -/
theorem claim_C4_canonical_idem :
    (∀ u : URL, DuplicatesPipeline.canonical (DuplicatesPipeline.canonical u) =
      DuplicatesPipeline.canonical u) ∧
    (∀ u : URL, (ActivateBlockIdPipeline.clean_url u).bind
      ActivateBlockIdPipeline.clean_url = ActivateBlockIdPipeline.clean_url u) := by
  constructor
  · intro u
    by_cases h : DuplicatesPipeline.is_sequence_start_page u
    · rw [canonical_def u, if_pos h]
      rw [canonical_def ({ u with query := "", path := URLPath.parent u.path } : URL)]
      rw [is_seq_parent_false u ({ u with query := "", path := URLPath.parent u.path } : URL)
        h rfl]
      simp only [Bool.false_eq_true, if_false]
    · have h' : DuplicatesPipeline.is_sequence_start_page u = false := by
        simpa using h
      rw [canonical_def u, h']
      simp only [Bool.false_eq_true, if_false]
      rw [canonical_def ({ u with query := "" } : URL)]
      rw [show DuplicatesPipeline.is_sequence_start_page ({ u with query := "" } : URL) =
        DuplicatesPipeline.is_sequence_start_page u from rfl, h']
      simp only [Bool.false_eq_true, if_false]
  · exact activate_clean_idem

end Pa11y

namespace Pa11y

/-- C9: each gating stage's seen set starts empty (`__init__`) and grows
monotonically: a step either leaves the set unchanged (duplicate) or adds exactly
one canonical URL that was not yet present (fresh); nothing is ever removed.  The
per-canonical state machine holds for both stages: in `DuplicatesPipeline` an
unseen canonical yields Fresh and is inserted while a seen canonical forces the
Duplicate outcome with the set unchanged (terminal `Seen`), and likewise in
`ActivateBlockIdPipeline`, whose canonical form for a marker-bearing record is
the successfully cleaned URL; a record without the marker passes through with
the set untouched. -/
theorem claim_C9_seen_monotone :
    DuplicatesPipeline.initial_seen = ([] : List URL) ∧
    ActivateBlockIdPipeline.initial_seen = ([] : List URL) ∧
    (∀ (seen : List URL) (u : URL),
      seen ⊆ (DuplicatesPipeline.process_item seen u).2 ∧
      ((DuplicatesPipeline.process_item seen u).2 = seen ∨
        ∃ c, c ∉ seen ∧ (DuplicatesPipeline.process_item seen u).2 = c :: seen) ∧
      (DuplicatesPipeline.canonical u ∉ seen →
        DuplicatesPipeline.process_item seen u =
          (some u, DuplicatesPipeline.canonical u :: seen)) ∧
      (DuplicatesPipeline.canonical u ∈ seen →
        DuplicatesPipeline.process_item seen u = (none, seen))) ∧
    (∀ (seen : List URL) (u : URL) (r : Option URL) (s' : List URL),
      ActivateBlockIdPipeline.process_item seen u = some (r, s') →
      seen ⊆ s' ∧ (s' = seen ∨ ∃ c, c ∉ seen ∧ s' = c :: seen)) ∧
    (∀ (seen : List URL) (u c : URL),
      u.query_dict_contains "activate_block_id" = true →
      ActivateBlockIdPipeline.clean_url u = some c →
      (c ∉ seen →
        ActivateBlockIdPipeline.process_item seen u = some (some u, c :: seen)) ∧
      (c ∈ seen →
        ActivateBlockIdPipeline.process_item seen u = some (none, seen))) ∧
    (∀ (seen : List URL) (u : URL),
      u.query_dict_contains "activate_block_id" = false →
      ActivateBlockIdPipeline.process_item seen u = some (some u, seen)) := by
  refine ⟨rfl, rfl, ?_, ?_, ?_, ?_⟩
  · intro seen u
    by_cases hmem : DuplicatesPipeline.canonical u ∈ seen
    · rw [dup_process_def, if_pos hmem]
      exact ⟨List.Subset.refl _, Or.inl rfl, fun hc => absurd hmem hc, fun _ => rfl⟩
    · rw [dup_process_def, if_neg hmem]
      exact ⟨List.subset_cons_self _ _, Or.inr ⟨_, hmem, rfl⟩, fun _ => rfl,
        fun hc => absurd hc hmem⟩
  · intro seen u r s' h
    rw [act_process_def] at h
    by_cases hm : u.query_dict_contains "activate_block_id"
    · rw [if_pos hm] at h
      rcases hcl : ActivateBlockIdPipeline.clean_url u with _ | c
      · rw [hcl] at h
        cases h
      · rw [hcl] at h
        simp only [] at h
        by_cases hmem : c ∈ seen
        · rw [if_pos hmem] at h
          injection h with h
          cases h
          exact ⟨List.Subset.refl _, Or.inl rfl⟩
        · rw [if_neg hmem] at h
          injection h with h
          cases h
          exact ⟨List.subset_cons_self _ _, Or.inr ⟨c, hmem, rfl⟩⟩
    · rw [if_neg hm] at h
      injection h with h
      cases h
      exact ⟨List.Subset.refl _, Or.inl rfl⟩
  · intro seen u c hm hcl
    constructor
    · intro hmem
      rw [act_process_def, if_pos hm, hcl]
      show (if c ∈ seen then some (none, seen) else some (some u, c :: seen)) =
        some (some u, c :: seen)
      rw [if_neg hmem]
    · intro hmem
      rw [act_process_def, if_pos hm, hcl]
      show (if c ∈ seen then some (none, seen) else some (some u, c :: seen)) =
        some (none, seen)
      rw [if_pos hmem]
  · intro seen u hm
    rw [act_process_def, if_neg (by simp [hm])]

/-- C9 witness: for each stage, one fresh step adds the canonical URL and one
duplicate step leaves the seen set untouched; a marker-less record passes the
activation stage with the set unchanged. -/
theorem claim_C9_seen_monotone_witness :
    DuplicatesPipeline.process_item [mkUrl "http" "h" "/p" "" ""]
      (mkUrl "http" "h" "/q" "" "") =
      (some (mkUrl "http" "h" "/q" "" ""),
        DuplicatesPipeline.canonical (mkUrl "http" "h" "/q" "" "") ::
          [mkUrl "http" "h" "/p" "" ""]) ∧
    DuplicatesPipeline.process_item [mkUrl "http" "h" "/p" "" ""]
      (mkUrl "http" "h" "/p" "x=1" "") = (none, [mkUrl "http" "h" "/p" "" ""]) ∧
    ActivateBlockIdPipeline.process_item []
      (mkUrl "http" "h" "/s/42" "activate_block_id=x" "") =
      some (some (mkUrl "http" "h" "/s/42" "activate_block_id=x" ""),
        mkUrl "http" "h" "/s/" "" "" :: []) ∧
    ActivateBlockIdPipeline.process_item [mkUrl "http" "h" "/s/" "" ""]
      (mkUrl "http" "h" "/s/" "activate_block_id=y" "") =
      some (none, [mkUrl "http" "h" "/s/" "" ""]) ∧
    ActivateBlockIdPipeline.process_item [mkUrl "http" "h" "/p" "" ""]
      (mkUrl "http" "h" "/q" "x=1" "") =
      some (some (mkUrl "http" "h" "/q" "x=1" ""), [mkUrl "http" "h" "/p" "" ""]) :=
  ⟨(claim_C9_seen_monotone.2.2.1 [mkUrl "http" "h" "/p" "" ""]
      (mkUrl "http" "h" "/q" "" "")).2.2.1 (by decide),
   (claim_C9_seen_monotone.2.2.1 [mkUrl "http" "h" "/p" "" ""]
      (mkUrl "http" "h" "/p" "x=1" "")).2.2.2 (by decide),
   (claim_C9_seen_monotone.2.2.2.2.1 [] (mkUrl "http" "h" "/s/42" "activate_block_id=x" "")
      (mkUrl "http" "h" "/s/" "" "") (by decide) (by decide)).1 (by decide),
   (claim_C9_seen_monotone.2.2.2.2.1 [mkUrl "http" "h" "/s/" "" ""]
      (mkUrl "http" "h" "/s/" "activate_block_id=y" "")
      (mkUrl "http" "h" "/s/" "" "") (by decide) (by decide)).2 (by decide),
   claim_C9_seen_monotone.2.2.2.2.2 [mkUrl "http" "h" "/p" "" ""]
      (mkUrl "http" "h" "/q" "x=1" "") (by decide)⟩

/-- C10 (implicit): the query-strip canonicalization preserves the fragment, so
two records whose URLs differ only in their fragment have distinct canonical
forms under the URL-dedup stage, and starting from the empty seen set both are
forwarded. -/
theorem claim_C10_fragment_distinct (u : URL) (g : String) (hg : g ≠ u.fragment) :
    DuplicatesPipeline.canonical u ≠
      DuplicatesPipeline.canonical { u with fragment := g } ∧
    DuplicatesPipeline.process_item [] u = (some u, [DuplicatesPipeline.canonical u]) ∧
    (DuplicatesPipeline.process_item [DuplicatesPipeline.canonical u]
      { u with fragment := g }).1 = some ({ u with fragment := g } : URL) := by
  have hfrag1 : (DuplicatesPipeline.canonical u).fragment = u.fragment :=
    (canonical_components u).2.2
  have hfrag2 : (DuplicatesPipeline.canonical { u with fragment := g }).fragment = g :=
    (canonical_components _).2.2
  have hne : DuplicatesPipeline.canonical u ≠
      DuplicatesPipeline.canonical { u with fragment := g } := by
    intro he
    apply hg
    rw [← hfrag2, ← he, hfrag1]
  refine ⟨hne, ?_, ?_⟩
  · rw [dup_process_def, if_neg (List.not_mem_nil _)]
  · rw [dup_process_def, if_neg (by
      simp only [List.mem_singleton]
      exact fun he => hne he.symm)]

/-- C10 witness: two URLs differing only in the fragment both pass the dedup
gate. -/
theorem claim_C10_fragment_distinct_witness :
    DuplicatesPipeline.canonical (mkUrl "http" "h" "/p" "q=1" "f1") ≠
      DuplicatesPipeline.canonical { mkUrl "http" "h" "/p" "q=1" "f1" with
        fragment := "f2" } ∧
    DuplicatesPipeline.process_item [] (mkUrl "http" "h" "/p" "q=1" "f1") =
      (some (mkUrl "http" "h" "/p" "q=1" "f1"),
        [DuplicatesPipeline.canonical (mkUrl "http" "h" "/p" "q=1" "f1")]) ∧
    (DuplicatesPipeline.process_item
      [DuplicatesPipeline.canonical (mkUrl "http" "h" "/p" "q=1" "f1")]
      { mkUrl "http" "h" "/p" "q=1" "f1" with fragment := "f2" }).1 =
      some ({ mkUrl "http" "h" "/p" "q=1" "f1" with fragment := "f2" } : URL) :=
  claim_C10_fragment_distinct (mkUrl "http" "h" "/p" "q=1" "f1") "f2" (by decide)

end Pa11y

namespace Pa11y

theorem activate_clean_shape (u : URL) (b a : List Char)
    (hpath : u.path = ⟨b ++ '/' :: a⟩) (ha : ∀ c ∈ a, (c == '/') = false) :
    ActivateBlockIdPipeline.clean_url u =
      some ((u.del_query_param "activate_block_id").with_path
        ⟨b ++ '/' :: (match pyInt a with | some _ => [] | none => a)⟩) := by
  unfold ActivateBlockIdPipeline.clean_url
  simp only []
  rw [show (u.del_query_param "activate_block_id").path = u.path from rfl, hpath,
    rsplitSlash1_concat b a ha]

/-- C5 counterexample: the two URL shapes named by the claim do not collapse to
the same canonical form — the activation clean-up keeps query parameters other
than the marker, so the `?foo=bar` variant retains its query (and, lacking the
marker, is not even fed to this stage's gate: it passes through with the seen
set untouched). -/
theorem claim_C5_counterexample :
    ActivateBlockIdPipeline.clean_url
        (mkUrl "http" "h" "/section/42" "activate_block_id=abc" "") ≠
      ActivateBlockIdPipeline.clean_url (mkUrl "http" "h" "/section/" "foo=bar" "") ∧
    ActivateBlockIdPipeline.process_item []
      (mkUrl "http" "h" "/section/" "foo=bar" "") =
      some (some (mkUrl "http" "h" "/section/" "foo=bar" ""), []) :=
  ⟨by decide, by decide⟩

/-- C5 (amended): under the activation-marker stage, `.../42?activate_block_id=abc`
and `.../?activate_block_id=def` (same path prefix, numeric tail stripped)
collapse to the same canonical form — the prefix URL with the marker removed and
the path ending in `/` — independent of the URL-dedup policy (which this stage
never consults) and of the scheme, host and fragment; but query parameters other
than the marker are retained, so two URLs collapse only if they agree on them. -/
theorem claim_C5_amended (s n f pre : String) :
    ActivateBlockIdPipeline.clean_url
        (⟨s, n, pre ++ "/42", "activate_block_id=abc", f⟩ : URL) =
      some ⟨s, n, pre ++ "/", "", f⟩ ∧
    ActivateBlockIdPipeline.clean_url
        (⟨s, n, pre ++ "/", "activate_block_id=def", f⟩ : URL) =
      some ⟨s, n, pre ++ "/", "", f⟩ := by
  constructor
  · rw [activate_clean_shape (⟨s, n, pre ++ "/42", "activate_block_id=abc", f⟩ : URL)
      pre.data ['4', '2'] rfl (by decide)]
    rw [show pyInt ['4', '2'] = some 42 from by decide]
    show some (⟨s, n, ⟨pre.data ++ '/' :: []⟩,
      (⟨qsUnparse ((qsList ("activate_block_id=abc" : String).data).filter
        (fun pr => !(pr.1 == "activate_block_id".data)))⟩ : String), f⟩ : URL) = _
    rw [show (⟨qsUnparse ((qsList ("activate_block_id=abc" : String).data).filter
        (fun pr => !(pr.1 == "activate_block_id".data)))⟩ : String) = "" from by decide]
    rfl
  · rw [activate_clean_shape (⟨s, n, pre ++ "/", "activate_block_id=def", f⟩ : URL)
      pre.data [] rfl (by intro c hc; cases hc)]
    rw [pyInt_nil]
    show some (⟨s, n, ⟨pre.data ++ '/' :: []⟩,
      (⟨qsUnparse ((qsList ("activate_block_id=def" : String).data).filter
        (fun pr => !(pr.1 == "activate_block_id".data)))⟩ : String), f⟩ : URL) = _
    rw [show (⟨qsUnparse ((qsList ("activate_block_id=def" : String).data).filter
        (fun pr => !(pr.1 == "activate_block_id".data)))⟩ : String) = "" from by decide]
    rfl

/-- C6 counterexample: a record whose URL carries the marker but whose path has
no `/` at all (here the empty path of `http://example.com?activate_block_id=1`)
makes the clean-up fail — `before, after = path.rsplit("/", 1)` raises an
uncaught `ValueError` (the `try` only guards `int(after)`), modelled by `none`
escaping both `clean_url` and `process_item`. -/
theorem claim_C6_counterexample :
    ActivateBlockIdPipeline.clean_url
      (mkUrl "http" "example.com" "" "activate_block_id=1" "") = none ∧
    (mkUrl "http" "example.com" "" "activate_block_id=1" "").query_dict_contains
      "activate_block_id" = true ∧
    ActivateBlockIdPipeline.process_item []
      (mkUrl "http" "example.com" "" "activate_block_id=1" "") = none :=
  ⟨by decide, by decide, by decide⟩

/-- C6 (amended): for every record whose URL path contains at least one `/`, the
activation-marker stage never raises: the clean-up succeeds, a trailing path
segment that does not parse as a base-10 integer is an ordinary policy branch in
which the path is left unchanged, and `process_item` never produces the
exception outcome.  (Paths with no `/` separator do make canonicalization fail —
see the counterexample.) -/
theorem claim_C6_amended (u : URL) (hs : '/' ∈ u.path.data) :
    (∃ v, ActivateBlockIdPipeline.clean_url u = some v ∧
      (∀ b a, ActivateBlockIdPipeline.rsplitSlash1 u.path = some (b, a) →
        pyInt a = none → v.path = u.path)) ∧
    (∀ seen, ActivateBlockIdPipeline.process_item seen u ≠ none) := by
  obtain ⟨b, a, hrs⟩ := rsplitSlash1_isSome u.path hs
  obtain ⟨hdecomp, hafree⟩ := rsplitSlash1_decomp u.path b a hrs
  have hpath : u.path = ⟨b ++ '/' :: a⟩ := congrArg String.mk hdecomp
  have hclean := activate_clean_shape u b a hpath hafree
  constructor
  · refine ⟨_, hclean, ?_⟩
    intro b' a' hrs' hpy
    rw [hrs] at hrs'
    injection hrs' with hba
    cases hba
    show ((u.del_query_param "activate_block_id").with_path
      ⟨b ++ '/' :: (match pyInt a with | some _ => [] | none => a)⟩).path = u.path
    rw [hpy]
    exact hpath.symm
  · intro seen
    rw [act_process_def]
    by_cases hm : u.query_dict_contains "activate_block_id"
    · rw [if_pos hm, hclean]
      simp only []
      by_cases hmem : ((u.del_query_param "activate_block_id").with_path
          ⟨b ++ '/' :: (match pyInt a with | some _ => [] | none => a)⟩) ∈ seen
      · rw [if_pos hmem]
        simp
      · rw [if_neg hmem]
        simp
    · rw [if_neg hm]
      simp

/-- C6 witness: a marker-bearing URL with a non-integer trailing segment is
cleaned without error and its path is untouched. -/
theorem claim_C6_amended_witness :
    (∃ v, ActivateBlockIdPipeline.clean_url
        (mkUrl "http" "h" "/a/b" "activate_block_id=1" "") = some v ∧
      (∀ b a, ActivateBlockIdPipeline.rsplitSlash1
          (mkUrl "http" "h" "/a/b" "activate_block_id=1" "").path = some (b, a) →
        pyInt a = none →
        v.path = (mkUrl "http" "h" "/a/b" "activate_block_id=1" "").path)) ∧
    (∀ seen, ActivateBlockIdPipeline.process_item seen
      (mkUrl "http" "h" "/a/b" "activate_block_id=1" "") ≠ none) :=
  claim_C6_amended (mkUrl "http" "h" "/a/b" "activate_block_id=1" "") (by decide)

end Pa11y

namespace Pa11y

/-- C7 counterexample: the stages perform no URL validation.  A record whose
`url` is not a valid URL (the string `not a url`, which `urlsplit` leniently
parses to a bare path) is not rejected: the DRF stage forwards it, the dedup
stage forwards it AND records it in the seen set as fresh, and the activation
stage forwards it — contradicting the claim that such a record is neither
forwarded nor recorded. -/
theorem claim_C7_counterexample :
    DropDRFPipeline.process_item (mkUrl "" "" "not a url" "" "") =
      some (mkUrl "" "" "not a url" "" "") ∧
    DuplicatesPipeline.process_item [] (mkUrl "" "" "not a url" "" "") =
      (some (mkUrl "" "" "not a url" "" ""), [mkUrl "" "" "not a url" "" ""]) ∧
    ActivateBlockIdPipeline.process_item [] (mkUrl "" "" "not a url" "" "") =
      some (some (mkUrl "" "" "not a url" "" ""), []) :=
  ⟨by decide, by decide, by decide⟩

/-- C7 (amended): the stages have no input-validation outcome distinct from
suppression.  Every record — malformed `url` or not — is either forwarded
unchanged or suppressed: the dedup stage forwards the original record (recording
its canonical form as fresh) or drops it, the DRF stage forwards or drops, and
the activation stage, when it returns at all, forwards the original record or
drops it (its only other behaviour being the unhandled exception of C6). -/
theorem claim_C7_no_validation (seen : List URL) (u : URL) :
    ((DuplicatesPipeline.process_item seen u).1 = some u ∨
      (DuplicatesPipeline.process_item seen u).1 = none) ∧
    ((DuplicatesPipeline.process_item seen u).1 = some u →
      DuplicatesPipeline.canonical u ∈ (DuplicatesPipeline.process_item seen u).2) ∧
    (DropDRFPipeline.process_item u = some u ∨ DropDRFPipeline.process_item u = none) ∧
    (∀ r s', ActivateBlockIdPipeline.process_item seen u = some (r, s') →
      r = some u ∨ r = none) := by
  refine ⟨?_, ?_, ?_, ?_⟩
  · rw [dup_process_def]
    by_cases hmem : DuplicatesPipeline.canonical u ∈ seen
    · rw [if_pos hmem]; exact Or.inr rfl
    · rw [if_neg hmem]; exact Or.inl rfl
  · intro h
    rw [dup_process_def] at h ⊢
    by_cases hmem : DuplicatesPipeline.canonical u ∈ seen
    · rw [if_pos hmem] at h; cases h
    · rw [if_neg hmem]
      exact List.mem_cons_self _ _
  · unfold DropDRFPipeline.process_item
    by_cases hapi : u.path_startswith "/api/"
    · rw [if_pos hapi]; exact Or.inr rfl
    · rw [if_neg hapi]; exact Or.inl rfl
  · intro r s' h
    rw [act_process_def] at h
    by_cases hm : u.query_dict_contains "activate_block_id"
    · rw [if_pos hm] at h
      rcases hcl : ActivateBlockIdPipeline.clean_url u with _ | c
      · rw [hcl] at h; cases h
      · rw [hcl] at h
        simp only [] at h
        by_cases hmem : c ∈ seen
        · rw [if_pos hmem] at h
          injection h with h
          cases h
          exact Or.inr rfl
        · rw [if_neg hmem] at h
          injection h with h
          cases h
          exact Or.inl rfl
    · rw [if_neg hm] at h
      injection h with h
      cases h
      exact Or.inl rfl

/-- C7 witness: a record with a malformed URL is forwarded by the dedup stage
and its canonical form is recorded as fresh. -/
theorem claim_C7_no_validation_witness :
    DuplicatesPipeline.canonical (mkUrl "" "" "not a url" "" "") ∈
      (DuplicatesPipeline.process_item [] (mkUrl "" "" "not a url" "" "")).2 :=
  (claim_C7_no_validation [] (mkUrl "" "" "not a url" "" "")).2.1 (by decide)

/-- C8 counterexample: Policy A's canonicalizer does not retain every other
query parameter.  On the query `&next=1` the parse yields a degenerate empty
parameter before the `next` parameter, and re-encoding after the removal drops
it, so the canonical query parses to `[]` rather than to the filtered list. -/
theorem claim_C8_counterexample :
    qsList (policyA_clean_url (mkUrl "http" "h" "/p" "&next=1" "")).query.data ≠
      (qsList (mkUrl "http" "h" "/p" "&next=1" "").query.data).filter
        (fun pr => !(pr.1 == "next".data)) := by decide

theorem dropWhile_empty_pair_eq_self (L : List (List Char × Option (List Char)))
    (h : ∀ x ∈ L, x ≠ (([], none) : List Char × Option (List Char))) :
    L.dropWhile (fun pr => pr == ([], none)) = L := by
  cases L with
  | nil => rfl
  | cons p ps =>
    exact List.dropWhile_cons_of_neg (by simpa using h p (List.mem_cons_self p ps))

/-- C8 (amended): under Policy A (spec-modelled, `del_query_param "next"`), for
every URL whose query has no degenerate empty field, the canonical form is the
input URL with exactly the parameters named `next` removed; all other query
parameters are retained at the name–value level (their percent-encoding may be
normalized by the re-encoding), and scheme, host, path and fragment are
unchanged.  (A degenerate empty field, as in `?&next=1`, is dropped by the
re-encoding — see the counterexample.) -/
theorem claim_C8_policyA (u : URL)
    (hnd : (([], none) : List Char × Option (List Char)) ∉ qsList u.query.data) :
    qsList (policyA_clean_url u).query.data =
      (qsList u.query.data).filter (fun pr => !(pr.1 == "next".data)) ∧
    (policyA_clean_url u).scheme = u.scheme ∧
    (policyA_clean_url u).netloc = u.netloc ∧
    (policyA_clean_url u).path = u.path ∧
    (policyA_clean_url u).fragment = u.fragment := by
  refine ⟨?_, rfl, rfl, rfl, rfl⟩
  show qsList (u.del_query_param "next").query.data = _
  rw [qsList_del_query_param]
  apply dropWhile_empty_pair_eq_self
  intro x hx
  exact fun he => hnd (he ▸ (List.mem_filter.mp hx).1)

/-- C8 witness: a query mixing an ordinary parameter with `next`. -/
theorem claim_C8_policyA_witness :
    qsList (policyA_clean_url (mkUrl "http" "h" "/p" "a=1&next=2" "")).query.data =
      (qsList (mkUrl "http" "h" "/p" "a=1&next=2" "").query.data).filter
        (fun pr => !(pr.1 == "next".data)) ∧
    (policyA_clean_url (mkUrl "http" "h" "/p" "a=1&next=2" "")).scheme =
      (mkUrl "http" "h" "/p" "a=1&next=2" "").scheme ∧
    (policyA_clean_url (mkUrl "http" "h" "/p" "a=1&next=2" "")).netloc =
      (mkUrl "http" "h" "/p" "a=1&next=2" "").netloc ∧
    (policyA_clean_url (mkUrl "http" "h" "/p" "a=1&next=2" "")).path =
      (mkUrl "http" "h" "/p" "a=1&next=2" "").path ∧
    (policyA_clean_url (mkUrl "http" "h" "/p" "a=1&next=2" "")).fragment =
      (mkUrl "http" "h" "/p" "a=1&next=2" "").fragment :=
  claim_C8_policyA (mkUrl "http" "h" "/p" "a=1&next=2" "") (by decide)

end Pa11y

namespace Pa11y

/-- C4 witness: idempotence evaluated at a sequence-start URL and at a
marker-bearing URL. -/
theorem claim_C4_canonical_idem_witness :
    DuplicatesPipeline.canonical (DuplicatesPipeline.canonical
        (mkUrl "http" "h" "/courses/X/courseware/Y/Z/1" "a=1" "")) =
      DuplicatesPipeline.canonical (mkUrl "http" "h" "/courses/X/courseware/Y/Z/1" "a=1" "") ∧
    (ActivateBlockIdPipeline.clean_url
        (mkUrl "http" "h" "/s/42" "activate_block_id=x&k=v" "")).bind
      ActivateBlockIdPipeline.clean_url =
      ActivateBlockIdPipeline.clean_url (mkUrl "http" "h" "/s/42" "activate_block_id=x&k=v" "") :=
  ⟨claim_C4_canonical_idem.1 (mkUrl "http" "h" "/courses/X/courseware/Y/Z/1" "a=1" ""),
   claim_C4_canonical_idem.2 (mkUrl "http" "h" "/s/42" "activate_block_id=x&k=v" "")⟩

/-- C5 witness: the amended collapse at a concrete path prefix. -/
theorem claim_C5_amended_witness :
    ActivateBlockIdPipeline.clean_url
        (⟨"http", "h", "/section" ++ "/42", "activate_block_id=abc", ""⟩ : URL) =
      some ⟨"http", "h", "/section" ++ "/", "", ""⟩ ∧
    ActivateBlockIdPipeline.clean_url
        (⟨"http", "h", "/section" ++ "/", "activate_block_id=def", ""⟩ : URL) =
      some ⟨"http", "h", "/section" ++ "/", "", ""⟩ :=
  claim_C5_amended "http" "h" "" "/section"

end Pa11y
